import Mathlib

/-!
Verification of the CBF/CIF reader of `fabio/cbfimage.py`:
the byte-offset codec, the CIF tokenizer (`CIF._splitCIF`), the loop
assembler (`CIF._analyseOneLoop`), the ordered dictionary
(`CIF.__setitem__`), the pairwise key/value walk of `CIF._parseCIF`, and
the container read path (`cbfimage.read` / `cbfimage._readbinary_byte_offset`).

Strings of header text are modelled as `String` or `List Char`; byte
streams are modelled as `List Nat` with each element a byte value.
-/

set_option maxHeartbeats 1000000

/-! ## Byte-offset codec

Modelled from the spec: the repository imports `compByteOffet_numpy` and
`decByteOffet_numpy` from a `compression` module that is not among the
source files; the definitions below follow the spec's description of the
byte-offset codec (delta encoding with escape sentinels -128, -32768,
INT32_MIN and width escalation 8 -> 16 -> 32 -> 64 bit, little-endian). -/

/-- Two's-complement reading of a machine word: `half` is `2^(w-1)` for a
`w`-bit word and `m` is the unsigned value of the word. -/
def twosComp (half : Nat) (m : Nat) : Int :=
  if m < half then (m : Int) else (m : Int) - 2 * half

/-- Modelled from the spec: encode one delta with the narrowest
representation that does not collide with an escape sentinel. -/
def encDelta (d : Int) : List Nat :=
  if -128 < d ∧ d ≤ 127 then
    [(d % 256).toNat]
  else if -32768 < d ∧ d ≤ 32767 then
    128 :: [(d % 256).toNat, ((d / 256) % 256).toNat]
  else if -2147483648 < d ∧ d ≤ 2147483647 then
    128 :: 0 :: 128 ::
      [(d % 256).toNat, ((d / 256) % 256).toNat,
       ((d / 65536) % 256).toNat, ((d / 16777216) % 256).toNat]
  else
    128 :: 0 :: 128 :: 0 :: 0 :: 0 :: 128 ::
      [(d % 256).toNat, ((d / 256) % 256).toNat,
       ((d / 65536) % 256).toNat, ((d / 16777216) % 256).toNat,
       ((d / 4294967296) % 256).toNat, ((d / 1099511627776) % 256).toNat,
       ((d / 281474976710656) % 256).toNat,
       ((d / 72057594037927936) % 256).toNat]

/-- Modelled from the spec: encode a sequence of values as deltas against
the running previous value (initially 0). -/
def compBO : Int → List Int → List Nat
  | _, [] => []
  | prev, v :: vs => encDelta (v - prev) ++ compBO v vs

/-- Modelled from the spec: `Encode`, the byte-offset compressor. -/
def encodeBO (xs : List Int) : List Nat := compBO 0 xs

/-- Modelled from the spec: read one delta from the byte stream, following
escape sentinels; `none` when the stream is exhausted mid-delta. -/
def readOff : List Nat → Option (Int × List Nat)
  | [] => none
  | b0 :: r0 =>
    if twosComp 128 b0 ≠ -128 then some (twosComp 128 b0, r0)
    else
      match r0 with
      | b1 :: b2 :: r2 =>
        if twosComp 32768 (b1 + 256 * b2) ≠ -32768 then
          some (twosComp 32768 (b1 + 256 * b2), r2)
        else
          match r2 with
          | c1 :: c2 :: c3 :: c4 :: r4 =>
            if twosComp 2147483648
                (c1 + 256 * c2 + 65536 * c3 + 16777216 * c4) ≠ -2147483648 then
              some (twosComp 2147483648
                (c1 + 256 * c2 + 65536 * c3 + 16777216 * c4), r4)
            else
              match r4 with
              | e1 :: e2 :: e3 :: e4 :: e5 :: e6 :: e7 :: e8 :: r8 =>
                some (twosComp 9223372036854775808
                  (e1 + 256 * e2 + 65536 * e3 + 16777216 * e4 +
                   4294967296 * e5 + 1099511627776 * e6 +
                   281474976710656 * e7 + 72057594037927936 * e8), r8)
              | _ => none
          | _ => none
      | _ => none

/-- Modelled from the spec: `Decode` with a running cumulative value and an
expected count; strict, it fails if the stream is exhausted early or if
bytes remain when the count is reached. -/
def decOff (acc : Int) : Nat → List Nat → Option (List Int)
  | 0, bs => if bs = [] then some [] else none
  | n + 1, bs =>
    match readOff bs with
    | none => none
    | some (d, rest) =>
      match decOff (acc + d) n rest with
      | none => none
      | some t => some ((acc + d) :: t)

/-- Modelled from the spec: `Decode(bytes, expectedCount)`. -/
def decodeBO (bs : List Nat) (n : Nat) : Option (List Int) := decOff 0 n bs

/-- All consecutive deltas of the sequence (starting from the running
previous value) are representable in signed 64 bits. -/
def deltasOK : Int → List Int → Bool
  | _, [] => true
  | prev, v :: vs =>
    decide (-9223372036854775808 ≤ v - prev) &&
      decide (v - prev < 9223372036854775808) && deltasOK v vs

lemma twosComp_byte (d : Int) (h1 : -128 ≤ d) (h2 : d < 128) :
    twosComp 128 ((d % 256).toNat) = d := by
  unfold twosComp
  split <;> omega

lemma twosComp_two (d : Int) (h1 : -32768 ≤ d) (h2 : d < 32768) :
    twosComp 32768 ((d % 256).toNat + 256 * ((d / 256 % 256)).toNat) = d := by
  unfold twosComp
  split <;> omega

lemma twosComp_four (d : Int) (h1 : -2147483648 ≤ d) (h2 : d < 2147483648) :
    twosComp 2147483648
      ((d % 256).toNat + 256 * ((d / 256 % 256)).toNat +
       65536 * ((d / 65536 % 256)).toNat +
       16777216 * ((d / 16777216 % 256)).toNat) = d := by
  have t1 : ((d % 256).toNat : Int) = d % 256 :=
    Int.toNat_of_nonneg (Int.emod_nonneg _ (by norm_num))
  have t2 : ((d / 256 % 256).toNat : Int) = d / 256 % 256 :=
    Int.toNat_of_nonneg (Int.emod_nonneg _ (by norm_num))
  have t3 : ((d / 65536 % 256).toNat : Int) = d / 65536 % 256 :=
    Int.toNat_of_nonneg (Int.emod_nonneg _ (by norm_num))
  have t4 : ((d / 16777216 % 256).toNat : Int) = d / 16777216 % 256 :=
    Int.toNat_of_nonneg (Int.emod_nonneg _ (by norm_num))
  unfold twosComp
  split <;> push_cast [t1, t2, t3, t4] <;> omega

lemma twosComp_eight (d : Int) (h1 : -9223372036854775808 ≤ d)
    (h2 : d < 9223372036854775808) :
    twosComp 9223372036854775808
      ((d % 256).toNat + 256 * ((d / 256 % 256)).toNat +
       65536 * ((d / 65536 % 256)).toNat +
       16777216 * ((d / 16777216 % 256)).toNat +
       4294967296 * ((d / 4294967296 % 256)).toNat +
       1099511627776 * ((d / 1099511627776 % 256)).toNat +
       281474976710656 * ((d / 281474976710656 % 256)).toNat +
       72057594037927936 * ((d / 72057594037927936 % 256)).toNat) = d := by
  have t1 : ((d % 256).toNat : Int) = d % 256 :=
    Int.toNat_of_nonneg (Int.emod_nonneg _ (by norm_num))
  have t2 : ((d / 256 % 256).toNat : Int) = d / 256 % 256 :=
    Int.toNat_of_nonneg (Int.emod_nonneg _ (by norm_num))
  have t3 : ((d / 65536 % 256).toNat : Int) = d / 65536 % 256 :=
    Int.toNat_of_nonneg (Int.emod_nonneg _ (by norm_num))
  have t4 : ((d / 16777216 % 256).toNat : Int) = d / 16777216 % 256 :=
    Int.toNat_of_nonneg (Int.emod_nonneg _ (by norm_num))
  have t5 : ((d / 4294967296 % 256).toNat : Int) = d / 4294967296 % 256 :=
    Int.toNat_of_nonneg (Int.emod_nonneg _ (by norm_num))
  have t6 : ((d / 1099511627776 % 256).toNat : Int) = d / 1099511627776 % 256 :=
    Int.toNat_of_nonneg (Int.emod_nonneg _ (by norm_num))
  have t7 : ((d / 281474976710656 % 256).toNat : Int) =
      d / 281474976710656 % 256 :=
    Int.toNat_of_nonneg (Int.emod_nonneg _ (by norm_num))
  have t8 : ((d / 72057594037927936 % 256).toNat : Int) =
      d / 72057594037927936 % 256 :=
    Int.toNat_of_nonneg (Int.emod_nonneg _ (by norm_num))
  unfold twosComp
  split <;> push_cast [t1, t2, t3, t4, t5, t6, t7, t8] <;> omega

lemma readOff_encDelta (d : Int) (rest : List Nat)
    (h1 : -9223372036854775808 ≤ d) (h2 : d < 9223372036854775808) :
    readOff (encDelta d ++ rest) = some (d, rest) := by
  by_cases c8 : -128 < d ∧ d ≤ 127
  · have e := twosComp_byte d (by omega) (by omega)
    simp only [encDelta, if_pos c8, List.cons_append, List.nil_append, readOff]
    rw [e, if_pos (by omega : d ≠ -128)]
  · by_cases c16 : -32768 < d ∧ d ≤ 32767
    · have e := twosComp_two d (by omega) (by omega)
      simp only [encDelta, if_neg c8, if_pos c16, List.cons_append,
        List.nil_append, readOff]
      rw [if_neg (by decide : ¬ twosComp 128 128 ≠ -128), e,
        if_pos (by omega : d ≠ -32768)]
    · by_cases c32 : -2147483648 < d ∧ d ≤ 2147483647
      · have e := twosComp_four d (by omega) (by omega)
        simp only [encDelta, if_neg c8, if_neg c16, if_pos c32,
          List.cons_append, List.nil_append, readOff]
        rw [if_neg (by decide : ¬ twosComp 128 128 ≠ -128),
          if_neg (by decide : ¬ twosComp 32768 (0 + 256 * 128) ≠ -32768), e,
          if_pos (by omega : d ≠ -2147483648)]
      · have e := twosComp_eight d (by omega) (by omega)
        simp only [encDelta, if_neg c8, if_neg c16, if_neg c32,
          List.cons_append, List.nil_append, readOff]
        rw [if_neg (by decide : ¬ twosComp 128 128 ≠ -128),
          if_neg (by decide : ¬ twosComp 32768 (0 + 256 * 128) ≠ -32768),
          if_neg (by decide : ¬ twosComp 2147483648
            (0 + 256 * 0 + 65536 * 0 + 16777216 * 128) ≠ -2147483648), e]

lemma decOff_compBO (xs : List Int) : ∀ prev, deltasOK prev xs = true →
    decOff prev xs.length (compBO prev xs) = some xs := by
  induction xs with
  | nil =>
    intro prev _
    simp [compBO, decOff]
  | cons v vs ih =>
    intro prev h
    simp only [deltasOK, Bool.and_eq_true, decide_eq_true_eq] at h
    obtain ⟨⟨hl, hr⟩, hrest⟩ := h
    simp only [compBO, List.length_cons, decOff]
    rw [readOff_encDelta (v - prev) _ hl hr]
    have hv : prev + (v - prev) = v := by ring
    dsimp only
    rw [hv, ih v hrest]

/-- C1 (counterexample): as stated over all sequences of 64-bit-representable
signed integers, the round-trip law fails: for `x = [INT64_MIN, INT64_MAX]`
the second delta is `2^64 - 1`, which does not fit in the 64-bit escape
payload, so decoding returns `[INT64_MIN, INT64_MIN - 1]` instead of `x`. -/
theorem byteOffset_roundtrip_cex :
    decodeBO (encodeBO [-9223372036854775808, 9223372036854775807]) 2 ≠
      some [-9223372036854775808, 9223372036854775807] := by decide

/-- C1 (amended): for every finite sequence of signed integers whose
consecutive deltas (the first value counted as a delta against 0) are each
representable in signed 64 bits — which covers every sequence of values at
and adjacent to the escape boundaries -128, 127, -32768, 32767, INT32_MIN,
INT32_MAX — `decode(encode(x), len(x)) = x`. -/
theorem byteOffset_roundtrip_amended (xs : List Int)
    (h : deltasOK 0 xs = true) :
    decodeBO (encodeBO xs) xs.length = some xs :=
  decOff_compBO xs 0 h

/-- C1 (witness): the round trip at a concrete vector containing every
escape boundary and its neighbours. -/
theorem byteOffset_roundtrip_amended_witness :
    deltasOK 0 [0, 1, -1, 200, -129, -128, -127, 126, 127, 128, -32769,
      -32768, -32767, 32766, 32767, 32768, -2147483649, -2147483648,
      -2147483647, 2147483646, 2147483647, 2147483648] = true ∧
    decodeBO (encodeBO [0, 1, -1, 200, -129, -128, -127, 126, 127, 128,
      -32769, -32768, -32767, 32766, 32767, 32768, -2147483649, -2147483648,
      -2147483647, 2147483646, 2147483647, 2147483648])
      ([0, 1, -1, 200, -129, -128, -127, 126, 127, 128, -32769, -32768,
        -32767, 32766, 32767, 32768, -2147483649, -2147483648, -2147483647,
        2147483646, 2147483647, 2147483648] : List Int).length =
      some [0, 1, -1, 200, -129, -128, -127, 126, 127, 128, -32769, -32768,
        -32767, 32766, 32767, 32768, -2147483649, -2147483648, -2147483647,
        2147483646, 2147483647, 2147483648] :=
  ⟨by decide, byteOffset_roundtrip_amended _ (by decide)⟩

/-! ## Loop assembler: record partition of `CIF._analyseOneLoop`

Embedding of the record-building part of `CIF._analyseOneLoop`
(cbfimage.py lines 515-539), which receives the loop's column keys and its
flattened data values.  A record is modelled as the ordered association
list of `element[j] = data[k]` assignments the Python code performs. -/

/-- Embeds cbfimage.py lines 515-539: when there are fewer data values
than keys, build a single record padding missing values with the
placeholder; otherwise build `len(data) / len(keys)` full records with a
running data counter. -/
def analyseOneLoopPartition (keys data : List String) :
    List (List (String × String)) :=
  if data.length < keys.length then
    [(List.range keys.length).map (fun j =>
      (keys.getD j "", if j < data.length then data.getD j "" else "?"))]
  else
    (List.range (data.length / keys.length)).map (fun r =>
      (List.range keys.length).map (fun j =>
        (keys.getD j "", data.getD (r * keys.length + j) "")))

lemma range_succ_map_cons {β : Type} (n : Nat) (f : Nat → β) :
    (List.range (n + 1)).map f = f 0 :: (List.range n).map (f ∘ Nat.succ) := by
  rw [List.range_succ_eq_map, List.map_cons, List.map_map]

lemma record_zip (keys : List String) : ∀ (data : List String) (off : Nat),
    off + keys.length ≤ data.length →
    (List.range keys.length).map (fun j =>
        (keys.getD j "", data.getD (off + j) "")) =
      keys.zip ((data.drop off).take keys.length) := by
  induction keys with
  | nil => intro data off _; simp
  | cons a ks ih =>
    intro data off hoff
    have hlt : off < data.length := by
      simp only [List.length_cons] at hoff; omega
    rw [List.length_cons, range_succ_map_cons]
    have hdrop : data.drop off = data[off] :: data.drop (off + 1) :=
      List.drop_eq_getElem_cons hlt
    rw [hdrop, List.take_succ_cons, List.zip_cons_cons]
    congr 1
    · simp [List.getD_eq_getElem?_getD, List.getElem?_eq_getElem hlt]
    · have := ih data (off + 1) (by simp only [List.length_cons] at hoff; omega)
      rw [← this]
      apply List.map_congr_left
      intro j _
      simp only [Function.comp_apply, List.getD_cons_succ]
      congr 2
      omega

/-- C2: a loop whose column-key list has `k >= 1` keys and whose flattened
data list has exactly `k * n` values (`n >= 1`) is assembled into exactly
`n` records, each pairing all `k` keys, in key order, with the
corresponding consecutive `k` data values. -/
theorem analyseOneLoop_partition_law (keys data : List String) (n : Nat)
    (hk : 1 ≤ keys.length) (hn : 1 ≤ n)
    (hd : data.length = keys.length * n) :
    (analyseOneLoopPartition keys data).length = n ∧
    analyseOneLoopPartition keys data =
      (List.range n).map (fun r =>
        keys.zip ((data.drop (r * keys.length)).take keys.length)) ∧
    ∀ r < n, ((data.drop (r * keys.length)).take keys.length).length =
      keys.length := by
  have hmul : keys.length * 1 ≤ keys.length * n := Nat.mul_le_mul_left _ hn
  have hK : ¬ data.length < keys.length := by omega
  have hdiv : data.length / keys.length = n := by
    rw [hd]; exact Nat.mul_div_cancel_left n (by omega)
  refine ⟨?_, ?_, ?_⟩
  · simp [analyseOneLoopPartition, if_neg hK, hdiv]
  · simp only [analyseOneLoopPartition, if_neg hK, hdiv]
    apply List.map_congr_left
    intro r hr
    have hr' : r + 1 ≤ n := List.mem_range.mp hr
    have h2 : (r + 1) * keys.length ≤ n * keys.length :=
      Nat.mul_le_mul_right _ hr'
    have h3 : (r + 1) * keys.length = r * keys.length + keys.length := by ring
    have h4 : n * keys.length = keys.length * n := by ring
    exact record_zip keys data (r * keys.length) (by omega)
  · intro r hr
    have hr' : r + 1 ≤ n := hr
    have h2 : (r + 1) * keys.length ≤ n * keys.length :=
      Nat.mul_le_mul_right _ hr'
    have h3 : (r + 1) * keys.length = r * keys.length + keys.length := by ring
    have h4 : n * keys.length = keys.length * n := by ring
    rw [List.length_take, List.length_drop]
    omega

/-- C2 (witness): the spec scenario, a loop with 2 keys and 6 values
assembling into 3 records. -/
theorem analyseOneLoop_partition_law_witness :
    (analyseOneLoopPartition ["_a", "_b"] ["1", "2", "3", "4", "5", "6"]).length
      = 3 ∧
    analyseOneLoopPartition ["_a", "_b"] ["1", "2", "3", "4", "5", "6"] =
      (List.range 3).map (fun r =>
        (["_a", "_b"] : List String).zip
          (((["1", "2", "3", "4", "5", "6"] : List String).drop
            (r * (["_a", "_b"] : List String).length)).take
            (["_a", "_b"] : List String).length)) ∧
    ∀ r < 3,
      ((((["1", "2", "3", "4", "5", "6"] : List String)).drop
        (r * (["_a", "_b"] : List String).length)).take
        (["_a", "_b"] : List String).length).length =
        (["_a", "_b"] : List String).length :=
  analyseOneLoop_partition_law ["_a", "_b"] ["1", "2", "3", "4", "5", "6"] 3
    (by decide) (by decide) (by decide)

/-- C3 (counterexample): a loop with 2 keys and 5 data values (not a
multiple, more data than keys) is assembled into 2 records, not into the
single padded record the claim describes. -/
theorem analyseOneLoop_fallback_cex :
    (analyseOneLoopPartition ["_a", "_b"] ["1", "2", "3", "4", "5"]).length
        = 2 ∧
    (analyseOneLoopPartition ["_a", "_b"] ["1", "2", "3", "4", "5"]).length
        ≠ 1 := by
  decide

lemma rangeMapAllQ (l : List String) :
    (List.range l.length).map (fun j => (l.getD j "", "?")) =
      l.map (fun k => (k, "?")) := by
  induction l with
  | nil => simp
  | cons a ks ih =>
    rw [List.length_cons, range_succ_map_cons]
    have tl : (List.range ks.length).map
        ((fun j => (((a :: ks) : List String).getD j "", "?")) ∘ Nat.succ) =
        ks.map (fun k => (k, "?")) := by
      rw [← ih]
      apply List.map_congr_left
      intro j _
      simp [List.getD_cons_succ]
    rw [tl]
    simp [List.getD_cons_zero]

lemma padRecord (keys : List String) : ∀ data : List String,
    data.length < keys.length →
    (List.range keys.length).map (fun j =>
      (keys.getD j "", if j < data.length then data.getD j "" else "?")) =
    keys.zip data ++ (keys.drop data.length).map (fun k => (k, "?")) := by
  induction keys with
  | nil =>
    intro data h
    simp only [List.length_nil] at h
    omega
  | cons a ks ih =>
    intro data h
    cases data with
    | nil =>
      simp only [List.zip_nil_right, List.nil_append, List.length_nil,
        List.drop_zero, Nat.not_lt_zero, if_false]
      exact rangeMapAllQ (a :: ks)
    | cons b ds =>
      have h' : ds.length < ks.length := by
        simp only [List.length_cons] at h; omega
      simp only [List.length_cons]
      rw [range_succ_map_cons, List.drop_succ_cons, List.zip_cons_cons]
      have tl : (List.range ks.length).map
          ((fun j => (((a :: ks) : List String).getD j "",
            if j < ds.length + 1 then ((b :: ds) : List String).getD j ""
            else "?")) ∘ Nat.succ) =
          ks.zip ds ++ (ks.drop ds.length).map (fun k => (k, "?")) := by
        rw [← ih ds h']
        apply List.map_congr_left
        intro j _
        simp only [Function.comp_apply, List.getD_cons_succ]
        congr 1
        by_cases hjd : j < ds.length
        · rw [if_pos (by omega : Nat.succ j < ds.length + 1), if_pos hjd]
        · rw [if_neg (by omega : ¬ Nat.succ j < ds.length + 1), if_neg hjd]
      rw [tl, List.cons_append]
      congr 1
      rw [if_pos (by omega : 0 < ds.length + 1)]
      simp [List.getD_cons_zero]

/-- C3 (amended): the single padded record (first data values to the first
keys in order, the placeholder to the rest) is built exactly when the data
count is strictly smaller than the key count; when the data count exceeds
the key count and is not a multiple of it, `len(data) / len(keys)` full
records are built instead and the trailing remainder values are dropped. -/
theorem analyseOneLoop_fallback_amended (keys data : List String)
    (h : data.length < keys.length) :
    analyseOneLoopPartition keys data =
      [keys.zip data ++ (keys.drop data.length).map (fun k => (k, "?"))] := by
  simp only [analyseOneLoopPartition, if_pos h]
  rw [padRecord keys data h]

/-- C3 (witness): three keys and one data value give one record padded
with placeholders. -/
theorem analyseOneLoop_fallback_amended_witness :
    analyseOneLoopPartition ["_a", "_b", "_c"] ["1"] =
      [(["_a", "_b", "_c"] : List String).zip ["1"] ++
        ((["_a", "_b", "_c"] : List String).drop
          (["1"] : List String).length).map (fun k => (k, "?"))] :=
  analyseOneLoop_fallback_amended ["_a", "_b", "_c"] ["1"] (by decide)

/-! ## CIF tokenizer: `CIF._splitCIF`

Embedding of `CIF._splitCIF` (cbfimage.py lines 398-474) over `List Char`.
The Python `while` loops carry no structural decrease, so the embedding is
fuel-indexed: `TokRes.fuelOut` means the fuel ran out, and an execution
that returns `fuelOut` for every fuel is a non-terminating run of the
Python code. -/

/-- Python whitespace, as used by `str.strip()` and `str.split(None)`. -/
def pyWS : List Char := [' ', '\t', '\n', '\r', '\x0b', '\x0c']

/-- Python `str.strip()`. -/
def pyStrip (s : List Char) : List Char :=
  ((s.dropWhile (fun x => x ∈ pyWS)).reverse.dropWhile
    (fun x => x ∈ pyWS)).reverse

/-- The single-character members of `CIF.BLANK` (its two-character entries
can never equal a single character). -/
def blankChars : List Char := [' ', '\t', '\r', '\n']

/-- The single-character members of `CIF.EOL`. -/
def eolChars : List Char := ['\r', '\n']

/-- `CIF.BINARY_MARKER`. -/
def BINARY_MARKER : List Char := "--CIF-BINARY-FORMAT-SECTION--".toList

/-- The single-quote character. -/
def singleQuoteChar : Char := Char.ofNat 39

/-- The double-quote character. -/
def doubleQuoteChar : Char := Char.ofNat 34

/-- Python `str.find` for a subsequence pattern: index of the first
occurrence, `none` when absent (Python returns -1). -/
def findSub {α : Type} [DecidableEq α] : List α → List α → Option Nat
  | [], pat => if pat = [] then some 0 else none
  | a :: rest, pat =>
    if pat.isPrefixOf (a :: rest) then some 0
    else (findSub rest pat).map (fun j => j + 1)

/-- Result of the fuel-indexed tokenizer. -/
inductive TokRes
  | ok (fields : List (List Char))
  | err (msg : String)
  | fuelOut
deriving DecidableEq

/-- Embeds the quoted-field scan of `CIF._splitCIF` (both quote branches,
lines 412-450): `idx += 1 + sText[idx+1:].find(q)`, stop with the whole
remainder when `idx >= len(sText) - 1`, emit `sText[1:idx]` when the
character after the closing quote is blank, otherwise retry from the same
`idx`.  Returns the emitted field and the stripped remaining text; `none`
when the fuel runs out. -/
def quoteScan (c : Char) (s : List Char) : Nat → Nat → Option (List Char × List Char)
  | 0, _ => none
  | fuel + 1, idx =>
    let idx' := match (s.drop (idx + 1)).findIdx? (fun x => x = c) with
      | none => idx
      | some j => idx + 1 + j
    if s.length ≤ idx' + 1 then
      some (pyStrip ((s.drop 1).dropLast), [])
    else if s.getD (idx' + 1) ' ' ∈ blankChars then
      some (pyStrip ((s.drop 1).take (idx' - 1)), pyStrip (s.drop (idx' + 1)))
    else quoteScan c s fuel idx'

/-- Embeds the semicolon-field scan of `CIF._splitCIF` (lines 451-467):
`idx += 1 + sText[idx+1:].find(';')`, emit when `sText[idx-1]` is an
end-of-line character.  Python's negative indexing at `idx = 0`
(`sText[-1]`, `sText[1:-1]`) is reproduced explicitly. -/
def semiScan (s : List Char) : Nat → Nat → Option (List Char × List Char)
  | 0, _ => none
  | fuel + 1, idx =>
    let idx' := match (s.drop (idx + 1)).findIdx? (fun x => x = ';') with
      | none => idx
      | some j => idx + 1 + j
    let prev := if idx' = 0 then s.getLastD ' ' else s.getD (idx' - 1) ' '
    if prev ∈ eolChars then
      some (if idx' = 0 then pyStrip ((s.drop 1).dropLast)
            else pyStrip ((s.drop 1).take (idx' - 2)),
            pyStrip (s.drop (idx' + 1)))
    else semiScan s fuel idx'

/-- Embeds the outer field loop of `CIF._splitCIF` (lines 408-474): one
fuel unit per iteration of any of its loops. -/
def splitCIFAux : Nat → List Char → List (List Char) → TokRes
  | 0, _, _ => .fuelOut
  | fuel + 1, s, acc =>
    match s with
    | [] => .ok acc
    | c0 :: _ =>
      if c0 = singleQuoteChar then
        match quoteScan singleQuoteChar s fuel 0 with
        | none => .fuelOut
        | some (f, rest) => splitCIFAux fuel rest (acc ++ [f])
      else if c0 = doubleQuoteChar then
        match quoteScan doubleQuoteChar s fuel 0 with
        | none => .fuelOut
        | some (f, rest) => splitCIFAux fuel rest (acc ++ [f])
      else if c0 = ';' then
        let idx0 :=
          if BINARY_MARKER.isPrefixOf (pyStrip (s.drop 1)) then
            match findSub (s.drop 32) BINARY_MARKER with
            | none => 0
            | some j => j + 32 + BINARY_MARKER.length
          else 0
        match semiScan s fuel idx0 with
        | none => .fuelOut
        | some (f, rest) => splitCIFAux fuel rest (acc ++ [f])
      else
        match s.dropWhile (fun x => x ∈ pyWS) with
        | [] => .err "IndexError: list index out of range"
        | t =>
          let f := t.takeWhile (fun x => ¬ x ∈ pyWS)
          splitCIFAux fuel (pyStrip (s.drop f.length)) (acc ++ [f])

/-- `CIF._splitCIF`, fuel-indexed. -/
def splitCIF (fuel : Nat) (s : List Char) : TokRes := splitCIFAux fuel s []

lemma quoteScan_stuck_single :
    ∀ fuel, quoteScan singleQuoteChar [singleQuoteChar, 'a'] fuel 0 = none := by
  intro fuel
  induction fuel with
  | zero => rfl
  | succ n ih => exact ih

lemma quoteScan_stuck_double :
    ∀ fuel, quoteScan doubleQuoteChar [doubleQuoteChar, 'b'] fuel 0 = none := by
  intro fuel
  induction fuel with
  | zero => rfl
  | succ n ih => exact ih

/-- C4 (code bug): the tokenizer does not terminate on every input.  On
the two-character input consisting of an opening single quote followed by
a letter (no closing quote anywhere), the quote scan makes no progress
(`find` returns -1, leaving `idx` unchanged with `idx < len - 1`), so
`_splitCIF` loops forever: the embedding runs out of fuel for every fuel
value. -/
theorem splitCIF_diverges_unterminated_quote :
    ∀ fuel, splitCIF fuel [singleQuoteChar, 'a'] = TokRes.fuelOut := by
  intro fuel
  cases fuel with
  | zero => rfl
  | succ n =>
    show (match quoteScan singleQuoteChar [singleQuoteChar, 'a'] n 0 with
      | none => TokRes.fuelOut
      | some (f, rest) => splitCIFAux n rest ([] ++ [f])) = TokRes.fuelOut
    rw [quoteScan_stuck_single n]

/-- C5 (code bug): an input that begins with a double quote and contains
no closing quote followed by a blank is not emitted as a single truncated
field: the scan loops forever instead (out of fuel at every fuel value),
so no field and no error is ever produced. -/
theorem splitCIF_diverges_unterminated_double_quote :
    ∀ fuel, splitCIF fuel [doubleQuoteChar, 'b'] = TokRes.fuelOut := by
  intro fuel
  cases fuel with
  | zero => rfl
  | succ n =>
    show (match quoteScan doubleQuoteChar [doubleQuoteChar, 'b'] n 0 with
      | none => TokRes.fuelOut
      | some (f, rest) => splitCIFAux n rest ([] ++ [f])) = TokRes.fuelOut
    rw [quoteScan_stuck_double n]

/-! ## The CIF ordered dictionary

Embedding of the `CIF` class state (a `dict` plus the `_ordered` key
list) and of `CIF.__setitem__` (cbfimage.py lines 267-270): the key is
appended to `_ordered` only when not yet present, and the lookup table is
updated unconditionally. -/

/-- Python `dict` assignment on an association-list model. -/
def setValue : List (String × String) → String → String → List (String × String)
  | [], k, v => [(k, v)]
  | (k', v') :: rest, k, v =>
    if k' = k then (k, v) :: rest else (k', v') :: setValue rest k v

/-- The `CIF` dictionary: insertion-order list plus lookup table. -/
structure CIF where
  ordered : List String
  table : List (String × String)

/-- Embeds `CIF.__setitem__`. -/
def CIF.setItem (d : CIF) (k v : String) : CIF :=
  { ordered := if k ∈ d.ordered then d.ordered else d.ordered ++ [k],
    table := setValue d.table k v }

/-- Dictionary lookup. -/
def CIF.lookup (d : CIF) (k : String) : Option String := d.table.lookup k

/-- Apply a sequence of assignments in order. -/
def CIF.setMany (d : CIF) (ops : List (String × String)) : CIF :=
  ops.foldl (fun a p => a.setItem p.1 p.2) d

/-- Position of the first occurrence of a key in the insertion order. -/
def keyPos (k : String) : List String → Nat
  | [] => 0
  | a :: rest => if a = k then 0 else keyPos k rest + 1

lemma lookup_setValue_self (k v : String) :
    ∀ t : List (String × String), (setValue t k v).lookup k = some v := by
  intro t
  induction t with
  | nil => simp [setValue, List.lookup]
  | cons p rest ih =>
    obtain ⟨k', v'⟩ := p
    by_cases h : k' = k
    · simp [setValue, if_pos h, List.lookup]
    · simp only [setValue, if_neg h, List.lookup]
      rw [show (k == k') = false from beq_eq_false_iff_ne.mpr (Ne.symm h)]
      exact ih

lemma CIF.lookup_setItem_self (d : CIF) (k v : String) :
    (d.setItem k v).lookup k = some v :=
  lookup_setValue_self k v d.table

lemma mem_ordered_setItem (d : CIF) (a b k : String) (h : k ∈ d.ordered) :
    k ∈ (d.setItem a b).ordered := by
  simp only [CIF.setItem]
  split
  · exact h
  · exact List.mem_append_left _ h

lemma mem_ordered_setItem_self (d : CIF) (k v : String) :
    k ∈ (d.setItem k v).ordered := by
  simp only [CIF.setItem]
  split
  · assumption
  · exact List.mem_append_right _ (List.mem_singleton.mpr rfl)

lemma keyPos_append_of_mem (k : String) :
    ∀ (l t : List String), k ∈ l → keyPos k (l ++ t) = keyPos k l := by
  intro l t h
  induction l with
  | nil => exact absurd h (List.not_mem_nil k)
  | cons a rest ih =>
    by_cases ha : a = k
    · simp [keyPos, if_pos ha]
    · have : k ∈ rest := by
        rcases List.mem_cons.mp h with h1 | h1
        · exact absurd h1.symm ha
        · exact h1
      simp [keyPos, if_neg ha, ih this]

lemma keyPos_ordered_setItem (d : CIF) (a b k : String) (h : k ∈ d.ordered) :
    keyPos k (d.setItem a b).ordered = keyPos k d.ordered := by
  simp only [CIF.setItem]
  split
  · rfl
  · exact keyPos_append_of_mem k d.ordered [a] h

lemma count_ordered_setItem (d : CIF) (a b k : String) (h : k ∈ d.ordered) :
    (d.setItem a b).ordered.count k = d.ordered.count k := by
  simp only [CIF.setItem]
  split
  · rfl
  · next ha =>
    have hak : ¬ (a = k) := fun he => ha (he ▸ h)
    rw [List.count_append]
    simp [List.count_cons, hak]

lemma nodup_ordered_setItem (d : CIF) (a b : String) (h : d.ordered.Nodup) :
    (d.setItem a b).ordered.Nodup := by
  simp only [CIF.setItem]
  split
  · exact h
  · next ha =>
    rw [List.nodup_append]
    refine ⟨h, List.nodup_singleton a, ?_⟩
    intro x hx hxa
    rw [List.mem_singleton] at hxa
    exact ha (hxa ▸ hx)

lemma count_ordered_setItem_first (d : CIF) (k v : String)
    (h : d.ordered.Nodup) : (d.setItem k v).ordered.count k = 1 := by
  simp only [CIF.setItem]
  split
  · next hk =>
    have h1 := (List.nodup_iff_count_le_one.mp h) k
    have h2 := List.count_pos_iff.mpr hk
    omega
  · next hk =>
    rw [List.count_append, List.count_eq_zero_of_not_mem hk]
    simp [List.count_cons]

lemma setMany_invariant (k : String) :
    ∀ (ops : List (String × String)) (d : CIF), k ∈ d.ordered →
      d.ordered.Nodup →
      k ∈ (d.setMany ops).ordered ∧
      keyPos k (d.setMany ops).ordered = keyPos k d.ordered ∧
      (d.setMany ops).ordered.count k = d.ordered.count k ∧
      (d.setMany ops).ordered.Nodup := by
  intro ops
  induction ops with
  | nil =>
    intro d h hn
    exact ⟨h, rfl, rfl, hn⟩
  | cons p ps ih =>
    intro d h hn
    have h1 := mem_ordered_setItem d p.1 p.2 k h
    have hn1 := nodup_ordered_setItem d p.1 p.2 hn
    obtain ⟨m, kp, ct, nd⟩ := ih (d.setItem p.1 p.2) h1 hn1
    refine ⟨m, ?_, ?_, nd⟩
    · exact kp.trans (keyPos_ordered_setItem d p.1 p.2 k h)
    · exact ct.trans (count_ordered_setItem d p.1 p.2 k h)

lemma ordered_setItem_of_mem (d : CIF) (k v : String) (h : k ∈ d.ordered) :
    (d.setItem k v).ordered = d.ordered := by
  simp [CIF.setItem, if_pos h]

/-- C9: setting `document[k] = v1` and later (after any sequence of other
assignments) `document[k] = v2` leaves the lookup value at `v2`, leaves
`k`'s position in the recorded first-insertion key order unchanged, and
`k` occurs in that order exactly once (the document's recorded order
holding no duplicates beforehand). -/
theorem setItem_reinsert_preserves_position (d : CIF) (k v1 v2 : String)
    (ops : List (String × String)) (hnd : d.ordered.Nodup) :
    (((d.setItem k v1).setMany ops).setItem k v2).lookup k = some v2 ∧
    keyPos k (((d.setItem k v1).setMany ops).setItem k v2).ordered =
      keyPos k (d.setItem k v1).ordered ∧
    (((d.setItem k v1).setMany ops).setItem k v2).ordered.count k = 1 := by
  have hm1 : k ∈ (d.setItem k v1).ordered := mem_ordered_setItem_self d k v1
  have hn1 : (d.setItem k v1).ordered.Nodup := nodup_ordered_setItem d k v1 hnd
  obtain ⟨hm2, hkp, hct, hn2⟩ := setMany_invariant k ops (d.setItem k v1) hm1 hn1
  have heq : (((d.setItem k v1).setMany ops).setItem k v2).ordered =
      ((d.setItem k v1).setMany ops).ordered :=
    ordered_setItem_of_mem _ k v2 hm2
  refine ⟨CIF.lookup_setItem_self _ k v2, ?_, ?_⟩
  · rw [heq, hkp]
  · rw [heq, hct, count_ordered_setItem_first d k v1 hnd]

/-- C9 (witness): a concrete document with one prior key, one intervening
assignment, and a re-inserted key. -/
theorem setItem_reinsert_preserves_position_witness :
    (((CIF.mk ["_z"] [("_z", "0")]).setItem "_k" "a").setMany
        [("_x", "1")] |>.setItem "_k" "b").lookup "_k" = some "b" ∧
    keyPos "_k" (((CIF.mk ["_z"] [("_z", "0")]).setItem "_k" "a").setMany
        [("_x", "1")] |>.setItem "_k" "b").ordered =
      keyPos "_k" ((CIF.mk ["_z"] [("_z", "0")]).setItem "_k" "a").ordered ∧
    (((CIF.mk ["_z"] [("_z", "0")]).setItem "_k" "a").setMany
        [("_x", "1")] |>.setItem "_k" "b").ordered.count "_k" = 1 :=
  setItem_reinsert_preserves_position (CIF.mk ["_z"] [("_z", "0")]) "_k"
    "a" "b" [("_x", "1")] (by decide)

/-! ## Pairwise key/value walk of `CIF._parseCIF`

Embedding of cbfimage.py lines 392-396: iterate over consecutive field
pairs; an empty second field is first replaced, in place, by the
placeholder, and the pair is stored when the first field starts with an
underscore and the (possibly replaced) second does not.  The in-place
mutation is modelled by passing the replaced field on as the head of the
remaining list.  Python evaluates `lFields[i][0]`, which raises an
uncaught IndexError when the field at position `i` is still the empty
string at its turn -- possible only at position 0, since every later
position was already replaced by the placeholder while it was
`lFields[i+1]` -- and the walk then aborts storing nothing; this is
modelled by `Except.error`. -/

/-- First character of a field (`field[0]`); only ever applied after the
field's emptiness check has passed, so the default is unreachable. -/
def strHead (s : String) : Char := s.toList.headD ' '

/-- Embeds the pairwise walk of `CIF._parseCIF` (lines 392-396),
including the IndexError raised by `lFields[i][0]` on an empty field at
the current position. -/
def parsePairs : CIF → List String → Except String CIF
  | d, a :: b :: rest =>
    let b' := if b.length = 0 then "?" else b
    if a.length = 0 then
      Except.error "IndexError: string index out of range"
    else
      let d' := if strHead a = '_' ∧ strHead b' ≠ '_' then d.setItem a b' else d
      parsePairs d' (b' :: rest)
  | d, _ => .ok d
termination_by _ l => l.length

lemma parsePairs_nil (d : CIF) : parsePairs d [] = .ok d := by
  simp [parsePairs]

lemma parsePairs_single (d : CIF) (a : String) : parsePairs d [a] = .ok d := by
  simp [parsePairs]

lemma parsePairs_cons_cons (d : CIF) (a b : String) (rest : List String) :
    parsePairs d (a :: b :: rest) =
      if a.length = 0 then
        Except.error "IndexError: string index out of range"
      else
        parsePairs
          (if strHead a = '_' ∧ strHead (if b.length = 0 then "?" else b) ≠ '_'
            then d.setItem a (if b.length = 0 then "?" else b) else d)
          ((if b.length = 0 then "?" else b) :: rest) := by
  simp only [parsePairs]

lemma string_eq_empty_of_length_zero (s : String) (h : s.length = 0) :
    s = "" := by
  cases s with
  | mk data =>
    cases data with
    | nil => rfl
    | cons c cs => simp [String.length] at h

lemma lookup_setValue_ne (a v k : String) (h : ¬ (a = k)) :
    ∀ t : List (String × String), (setValue t a v).lookup k = t.lookup k := by
  intro t
  induction t with
  | nil =>
    simp only [setValue, List.lookup]
    rw [show (k == a) = false from beq_eq_false_iff_ne.mpr (fun he => h he.symm)]
  | cons p rest ih =>
    obtain ⟨k', v'⟩ := p
    by_cases hk : k' = a
    · subst hk
      simp only [setValue, if_pos rfl, List.lookup]
      rw [show (k == k') = false from beq_eq_false_iff_ne.mpr
        (fun he => h he.symm)]
    · simp only [setValue, if_neg hk, List.lookup]
      by_cases he : k = k'
      · rw [show (k == k') = true from beq_iff_eq.mpr he]
      · rw [show (k == k') = false from beq_eq_false_iff_ne.mpr he]
        exact ih

lemma CIF.lookup_setItem_ne (d : CIF) (a v k : String) (h : ¬ (a = k)) :
    (d.setItem a v).lookup k = d.lookup k :=
  lookup_setValue_ne a v k h d.table

lemma parsePairs_lookup_not_mem (k : String) (hq : k ≠ "?") :
    ∀ (n : Nat) (l : List String) (d d2 : CIF), l.length ≤ n → k ∉ l →
      parsePairs d l = Except.ok d2 → d2.lookup k = d.lookup k := by
  intro n
  induction n with
  | zero =>
    intro l d d2 hl _ hok
    have : l = [] := List.eq_nil_of_length_eq_zero (by omega)
    subst this
    rw [parsePairs_nil] at hok
    cases hok
    rfl
  | succ n ih =>
    intro l d d2 hl hmem hok
    cases l with
    | nil =>
      rw [parsePairs_nil] at hok
      cases hok
      rfl
    | cons a l2 =>
      cases l2 with
      | nil =>
        rw [parsePairs_single] at hok
        cases hok
        rfl
      | cons b rest =>
        rw [parsePairs_cons_cons] at hok
        by_cases ha : a.length = 0
        · rw [if_pos ha] at hok
          cases hok
        · rw [if_neg ha] at hok
          have hkb : ¬ (k = b) := fun he =>
            hmem (List.mem_cons_of_mem a (List.mem_cons.mpr (Or.inl he)))
          have hka : ¬ (k = a) := fun he =>
            hmem (List.mem_cons.mpr (Or.inl he))
          have hkrest : k ∉ rest := fun hc =>
            hmem (List.mem_cons_of_mem a (List.mem_cons_of_mem b hc))
          have hb' : k ∉ (if b.length = 0 then "?" else b) :: rest := by
            intro hc
            rcases List.mem_cons.mp hc with hc1 | hc1
            · split at hc1
              · exact hq hc1
              · exact hkb hc1
            · exact hkrest hc1
          have hlen : ((if b.length = 0 then "?" else b) :: rest).length ≤ n := by
            simp only [List.length_cons] at hl ⊢
            omega
          rw [ih _ _ _ hlen hb' hok]
          by_cases hcond : strHead a = '_' ∧
              strHead (if b.length = 0 then "?" else b) ≠ '_'
          · rw [if_pos hcond]
            exact CIF.lookup_setItem_ne d a _ k (fun he => hka he.symm)
          · rw [if_neg hcond]

lemma parsePairs_ok_of_head_nonempty :
    ∀ (n : Nat) (l : List String) (d : CIF), l.length ≤ n →
      (∀ a, l.head? = some a → a.length ≠ 0) →
      ∃ d2, parsePairs d l = Except.ok d2 := by
  intro n
  induction n with
  | zero =>
    intro l d hl _
    have : l = [] := List.eq_nil_of_length_eq_zero (by omega)
    subst this
    exact ⟨d, parsePairs_nil d⟩
  | succ n ih =>
    intro l d hl hhd
    cases l with
    | nil => exact ⟨d, parsePairs_nil d⟩
    | cons a l2 =>
      cases l2 with
      | nil => exact ⟨d, parsePairs_single d a⟩
      | cons b rest =>
        have ha : a.length ≠ 0 := hhd a rfl
        have hb' : ∀ x, ((if b.length = 0 then "?" else b) :: rest).head? =
            some x → x.length ≠ 0 := by
          intro x hx
          simp only [List.head?_cons, Option.some.injEq] at hx
          subst hx
          split
          · decide
          · next hbb => exact hbb
        have hlen : ((if b.length = 0 then "?" else b) :: rest).length ≤ n := by
          simp only [List.length_cons] at hl ⊢
          omega
        obtain ⟨d2, hd2⟩ := ih ((if b.length = 0 then "?" else b) :: rest)
          (if strHead a = '_' ∧
              strHead (if b.length = 0 then "?" else b) ≠ '_' then
            d.setItem a (if b.length = 0 then "?" else b) else d) hlen hb'
        refine ⟨d2, ?_⟩
        rw [parsePairs_cons_cons, if_neg ha]
        exact hd2

lemma parsePairs_key_empty (k : String) (hk : strHead k = '_') :
    ∀ (n : Nat) (pre : List String), pre.length ≤ n →
      ∀ (post : List String) (d : CIF), k ∉ pre → k ∉ post →
        (∀ a, pre.head? = some a → a.length ≠ 0) →
        ∃ d2, parsePairs d (pre ++ k :: "" :: post) = Except.ok d2 ∧
          d2.lookup k = some "?" := by
  have hq : k ≠ "?" := by
    intro he
    rw [he] at hk
    exact absurd hk (by decide)
  have hne : k ≠ "" := by
    intro he
    rw [he] at hk
    exact absurd hk (by decide)
  have hlen0 : ¬ (k.length = 0) := fun h0 =>
    hne (string_eq_empty_of_length_zero k h0)
  have base : ∀ (post : List String) (d : CIF), k ∉ post →
      ∃ d2, parsePairs d (k :: "" :: post) = Except.ok d2 ∧
        d2.lookup k = some "?" := by
    intro post d hpost
    have hB : (if ("" : String).length = 0 then "?" else "") = "?" := by decide
    obtain ⟨d2, hd2⟩ := parsePairs_ok_of_head_nonempty (post.length + 1)
      ("?" :: post) (d.setItem k "?") (by simp)
      (by
        intro x hx
        simp only [List.head?_cons, Option.some.injEq] at hx
        subst hx
        decide)
    have hnm : k ∉ ("?" :: post) := by
      intro hc
      rcases List.mem_cons.mp hc with hc1 | hc1
      · exact hq hc1
      · exact hpost hc1
    refine ⟨d2, ?_, ?_⟩
    · rw [parsePairs_cons_cons, if_neg hlen0, hB, if_pos ⟨hk, by decide⟩]
      exact hd2
    · rw [parsePairs_lookup_not_mem k hq (post.length + 1) ("?" :: post)
        (d.setItem k "?") d2 (by simp) hnm hd2]
      exact CIF.lookup_setItem_self d k "?"
  intro n
  induction n with
  | zero =>
    intro pre hpre post d _ hpost _
    have : pre = [] := List.eq_nil_of_length_eq_zero (by omega)
    subst this
    rw [List.nil_append]
    exact base post d hpost
  | succ n ih =>
    intro pre hpre post d hpre_mem hpost hhd
    cases pre with
    | nil =>
      rw [List.nil_append]
      exact base post d hpost
    | cons a pre2 =>
      have ha : a.length ≠ 0 := hhd a rfl
      cases pre2 with
      | nil =>
        rw [List.cons_append, List.nil_append]
        obtain ⟨d2, hok, hlk⟩ := base post
          (if strHead a = '_' ∧ strHead k ≠ '_' then d.setItem a k else d)
          hpost
        refine ⟨d2, ?_, hlk⟩
        rw [parsePairs_cons_cons, if_neg ha, if_neg hlen0]
        exact hok
      | cons c pre3 =>
        have hkc : ¬ (k = c) := fun he =>
          hpre_mem (List.mem_cons_of_mem a (List.mem_cons.mpr (Or.inl he)))
        have hk3 : k ∉ pre3 := fun hc =>
          hpre_mem (List.mem_cons_of_mem a (List.mem_cons_of_mem c hc))
        rw [List.cons_append, List.cons_append]
        have hmem' : k ∉ (if c.length = 0 then "?" else c) :: pre3 := by
          intro hc
          rcases List.mem_cons.mp hc with hc1 | hc1
          · split at hc1
            · exact hq hc1
            · exact hkc hc1
          · exact hk3 hc1
        have hlen' : ((if c.length = 0 then "?" else c) :: pre3).length ≤ n := by
          simp only [List.length_cons] at hpre ⊢
          omega
        have hhd' : ∀ x, ((if c.length = 0 then "?" else c) :: pre3).head? =
            some x → x.length ≠ 0 := by
          intro x hx
          simp only [List.head?_cons, Option.some.injEq] at hx
          subst hx
          split
          · decide
          · next hcc => exact hcc
        obtain ⟨d2, hok, hlk⟩ := ih ((if c.length = 0 then "?" else c) :: pre3)
          hlen' post
          (if strHead a = '_' ∧
              strHead (if c.length = 0 then "?" else c) ≠ '_' then
            d.setItem a (if c.length = 0 then "?" else c) else d)
          hmem' hpost hhd'
        rw [List.cons_append] at hok
        refine ⟨d2, ?_, hlk⟩
        rw [parsePairs_cons_cons, if_neg ha]
        exact hok

/-- C10 (counterexample): on the field list `["", "_k", "", "v"]` the key
`_k` is immediately followed by an empty field, yet the walk evaluates
`lFields[0][0]` on the empty first field, raises IndexError and aborts
storing nothing, so the key is not stored with the placeholder. -/
theorem parsePairs_empty_first_field_cex :
    parsePairs (CIF.mk [] []) ["", "_k", "", "v"] =
      Except.error "IndexError: string index out of range" := by
  rw [parsePairs_cons_cons, if_pos (show ("" : String).length = 0 from rfl)]

/-- C10 (amended): in the pairwise walk of document assembly, a field
beginning with an underscore immediately followed by an empty field is
stored with the placeholder value (the empty field being replaced before
pairing), provided the walk reaches that pair: the first field of the
list must be nonempty (an empty first field raises IndexError and aborts
the walk) and the key must not recur elsewhere in the field list. -/
theorem parsePairs_empty_value_placeholder (d : CIF) (pre post : List String)
    (k : String) (hk : strHead k = '_') (hpre : k ∉ pre) (hpost : k ∉ post)
    (hhd : ∀ a, pre.head? = some a → a.length ≠ 0) :
    ∃ d2, parsePairs d (pre ++ k :: "" :: post) = Except.ok d2 ∧
      d2.lookup k = some "?" :=
  parsePairs_key_empty k hk pre.length pre le_rfl post d hpre hpost hhd

/-- C10 (witness): the field list `["x", "_k", "", "v"]` stores `_k` with
the placeholder. -/
theorem parsePairs_empty_value_placeholder_witness :
    ∃ d2, parsePairs (CIF.mk [] []) (["x"] ++ "_k" :: "" :: ["v"]) =
        Except.ok d2 ∧ d2.lookup "_k" = some "?" :=
  parsePairs_empty_value_placeholder (CIF.mk [] []) ["x"] ["v"] "_k"
    (by decide) (by decide) (by decide)
    (by
      intro a ha
      simp only [List.head?_cons, Option.some.injEq] at ha
      subst ha
      decide)

/-! ## CBF container read path

Embedding of `cbfimage.read` (cbfimage.py lines 115-148) and
`cbfimage._readbinary_byte_offset` (lines 152-172) over an already-parsed
header association list and the raw bytes of the `_array_data.data` field.
The Python exceptions are modelled by `Except CBFError` with the spec's
error taxonomy; `cbfimage.read` raises its corruption error (the spec's
`StructuralError`) when either dimension key is missing or its value is
not parseable by `int()`. -/

/-- Python `int()` on a string (strip whitespace, optional sign, digits);
`none` models `ValueError`. -/
def pyInt? (s : String) : Option Int :=
  match pyStrip s.toList with
  | [] => none
  | c :: ds =>
    if c = '-' then
      if ds ≠ [] ∧ ds.all (fun x => x.isDigit) then
        some (-(((ds.foldl (fun a x => 10 * a + (x.toNat - 48)) 0 : Nat)) : Int))
      else none
    else if c = '+' then
      if ds ≠ [] ∧ ds.all (fun x => x.isDigit) then
        some (((ds.foldl (fun a x => 10 * a + (x.toNat - 48)) 0 : Nat)) : Int)
      else none
    else if (c :: ds).all (fun x => x.isDigit) then
      some ((((c :: ds).foldl (fun a x => 10 * a + (x.toNat - 48)) 0 : Nat)) : Int)
    else none

/-- The error taxonomy of the read path. -/
inductive CBFError
  | structural (msg : String)
  | keyError (msg : String)
  | unsupportedCompression (msg : String)
  | sizeMismatch (msg : String)

/-- The 4-byte binary sentinel `STARTER = "\x0c\x1a\x04\xd5"`. -/
def STARTER : List Nat := [12, 26, 4, 213]

/-- The `DATA_TYPES` table, mapping element-type tags to widths. -/
def DATA_TYPES : List (String × Nat) :=
  [("signed 8-bit integer", 8), ("signed 16-bit integer", 16),
   ("signed 32-bit integer", 32), ("signed 64-bit integer", 64)]

/-- Embeds `cbfimage._readbinary_byte_offset`: Python's
`inStream.find(STARTER) + 4` yields 3 when the sentinel is absent (`find`
returns -1), the declared byte count is sliced from there, and the codec
output is checked against the expected sample count by the `assert`. -/
def readbinaryByteOffset (inStream : List Nat) (binSize : Nat)
    (expected : Nat) : Except CBFError (List Int) :=
  match decodeBO ((inStream.drop (match findSub inStream STARTER with
      | some i => i + 4
      | none => 3)).take binSize) expected with
  | none => .error (.sizeMismatch "decByteOffet: stream does not match expected size")
  | some l =>
    if l.length = expected then .ok l
    else .error (.structural "assert len(myData) == self.dim1 * self.dim2")

/-- `numpy.astype` cast of one sample to a `w`-bit signed integer. -/
def castWidth (w : Nat) (v : Int) : Int :=
  twosComp (2 ^ (w - 1)) ((v % ((2 : Int) ^ w)).toNat)

/-- Row-major reshape into `rows` rows of `cols` columns. -/
def reshapeRows (l : List Int) (rows cols : Nat) : List (List Int) :=
  (List.range rows).map (fun r => (l.drop (r * cols)).take cols)

/-- Embeds `cbfimage.read` after header parsing: dimension keys via
`int()` (their failure is the corruption error of lines 127-131), element
type defaulted to 32-bit on a missing or unknown tag (lines 132-138), the
`conversions` tag compared against the byte-offset identifier (lines
139-142), and the binary block decoded, cast and reshaped (line 140). -/
def cbfRead (header : List (String × String)) (arrayData : List Nat)
    (fname : String) : Except CBFError (Nat × List (List Int)) :=
  match (header.lookup "X-Binary-Size-Fastest-Dimension").bind pyInt? with
  | none =>
    .error (.structural ("CBF file " ++ fname ++ " is corrupt, no dimensions in it"))
  | some dim1 =>
    match (header.lookup "X-Binary-Size-Second-Dimension").bind pyInt? with
    | none =>
      .error (.structural ("CBF file " ++ fname ++ " is corrupt, no dimensions in it"))
    | some dim2 =>
      let width := match header.lookup "X-Binary-Element-Type" with
        | none => 32
        | some t => (DATA_TYPES.lookup t).getD 32
      match header.lookup "conversions" with
      | none => .error (.keyError "KeyError: conversions")
      | some conv =>
        if conv = "x-CBF_BYTE_OFFSET" then
          match (header.lookup "X-Binary-Size").bind pyInt? with
          | none => .error (.keyError "KeyError or ValueError: X-Binary-Size")
          | some bsz =>
            match readbinaryByteOffset arrayData bsz.toNat
                (dim1 * dim2).toNat with
            | .error e => .error e
            | .ok l =>
              .ok (width,
                reshapeRows (l.map (castWidth width)) dim2.toNat dim1.toNat)
        else
          .error (.unsupportedCompression
            "Compression scheme not yet supported, please contact FABIO development team")

/-- C6: a parsed header lacking the fastest-dimension key or the
second-dimension key, or holding a value for either that `int()` cannot
parse, makes the read fail with the corruption error (the spec's
`StructuralError`) whose message references the source file name. -/
theorem cbfRead_missing_dimensions_structural (header : List (String × String))
    (arrayData : List Nat) (fname : String)
    (h : (header.lookup "X-Binary-Size-Fastest-Dimension" = none ∨
          (∃ v, header.lookup "X-Binary-Size-Fastest-Dimension" = some v ∧
            pyInt? v = none)) ∨
         (header.lookup "X-Binary-Size-Second-Dimension" = none ∨
          (∃ v, header.lookup "X-Binary-Size-Second-Dimension" = some v ∧
            pyInt? v = none))) :
    cbfRead header arrayData fname =
      .error (.structural
        ("CBF file " ++ fname ++ " is corrupt, no dimensions in it")) := by
  have h1 : (header.lookup "X-Binary-Size-Fastest-Dimension").bind pyInt?
        = none ∨
      (header.lookup "X-Binary-Size-Second-Dimension").bind pyInt? = none := by
    rcases h with (h | ⟨v, hv, hp⟩) | (h | ⟨v, hv, hp⟩)
    · left; rw [h]; rfl
    · left; rw [hv, Option.some_bind]; exact hp
    · right; rw [h]; rfl
    · right; rw [hv, Option.some_bind]; exact hp
  rcases h1 with h1 | h1
  · simp only [cbfRead, h1]
  · cases hf : (header.lookup "X-Binary-Size-Fastest-Dimension").bind pyInt? with
    | none => simp only [cbfRead, hf]
    | some d1 => simp only [cbfRead, hf, h1]

/-- C6 (witness): a header with no dimension keys at all. -/
theorem cbfRead_missing_dimensions_structural_witness :
    cbfRead [("conversions", "x-CBF_BYTE_OFFSET")] [] "test.cbf" =
      .error (.structural
        ("CBF file " ++ "test.cbf" ++ " is corrupt, no dimensions in it")) :=
  cbfRead_missing_dimensions_structural [("conversions", "x-CBF_BYTE_OFFSET")]
    [] "test.cbf" (Or.inl (Or.inl rfl))

lemma readbinary_ne_UCE (s : List Nat) (sz n : Nat) (m : String) :
    readbinaryByteOffset s sz n ≠ .error (.unsupportedCompression m) := by
  unfold readbinaryByteOffset
  split
  · simp
  · split <;> simp

/-- C7: with parseable dimensions and a present `conversions` tag, a tag
other than the byte-offset identifier makes the read fail with the
unsupported-compression error; when the tag equals the identifier, no
unsupported-compression error can be produced (whatever else the decode
does). -/
theorem cbfRead_unsupported_compression (header : List (String × String))
    (arrayData : List Nat) (fname : String) (d1 d2 : Int) (conv : String)
    (h1 : (header.lookup "X-Binary-Size-Fastest-Dimension").bind pyInt?
      = some d1)
    (h2 : (header.lookup "X-Binary-Size-Second-Dimension").bind pyInt?
      = some d2)
    (hc : header.lookup "conversions" = some conv) :
    (conv ≠ "x-CBF_BYTE_OFFSET" →
      cbfRead header arrayData fname =
        .error (.unsupportedCompression
          "Compression scheme not yet supported, please contact FABIO development team")) ∧
    (conv = "x-CBF_BYTE_OFFSET" → ∀ m,
      cbfRead header arrayData fname ≠
        .error (.unsupportedCompression m)) := by
  constructor
  · intro hne
    simp only [cbfRead, h1, h2, hc]
    rw [if_neg hne]
  · intro he m hcontra
    simp only [cbfRead, h1, h2, hc] at hcontra
    rw [if_pos he] at hcontra
    cases hbs : (header.lookup "X-Binary-Size").bind pyInt? with
    | none =>
      rw [hbs] at hcontra
      simp at hcontra
    | some bsz =>
      rw [hbs] at hcontra
      dsimp only at hcontra
      cases hr : readbinaryByteOffset arrayData bsz.toNat (d1 * d2).toNat with
      | error e =>
        rw [hr] at hcontra
        dsimp only at hcontra
        simp only [Except.error.injEq] at hcontra
        exact readbinary_ne_UCE arrayData bsz.toNat (d1 * d2).toNat m
          (by rw [hr, hcontra])
      | ok l =>
        rw [hr] at hcontra
        simp at hcontra

/-- C7 (witness): the spec scenario, `conversions = "x-CBF_NONE"`. -/
theorem cbfRead_unsupported_compression_witness :
    cbfRead [("X-Binary-Size-Fastest-Dimension", "2"),
      ("X-Binary-Size-Second-Dimension", "2"), ("conversions", "x-CBF_NONE")]
      [] "f.cbf" =
      .error (.unsupportedCompression
        "Compression scheme not yet supported, please contact FABIO development team") :=
  (cbfRead_unsupported_compression
    [("X-Binary-Size-Fastest-Dimension", "2"),
      ("X-Binary-Size-Second-Dimension", "2"), ("conversions", "x-CBF_NONE")]
    [] "f.cbf" 2 2 "x-CBF_NONE" (by rfl) (by rfl) (by rfl)).1
    (by decide)

/-- C8 (counterexample): on an array-data field of four bytes containing
no sentinel, the binary-extraction step does not fail: Python's
`find` returns -1, the slice starts at byte offset 3, and the block
decodes successfully to one sample. -/
theorem readbinary_missing_sentinel_cex :
    findSub ([65, 66, 67, 5] : List Nat) STARTER = none ∧
    readbinaryByteOffset [65, 66, 67, 5] 1 1 = Except.ok [5] :=
  ⟨rfl, rfl⟩

lemma decOff_length : ∀ (n : Nat) (acc : Int) (bs : List Nat) (l : List Int),
    decOff acc n bs = some l → l.length = n := by
  intro n
  induction n with
  | zero =>
    intro acc bs l h
    simp only [decOff] at h
    split at h
    · cases h; rfl
    · cases h
  | succ n ih =>
    intro acc bs l h
    simp only [decOff] at h
    cases hro : readOff bs with
    | none =>
      rw [hro] at h
      cases h
    | some p =>
      obtain ⟨dd, rest⟩ := p
      rw [hro] at h
      dsimp only at h
      cases hdc : decOff (acc + dd) n rest with
      | none =>
        rw [hdc] at h
        cases h
      | some t =>
        rw [hdc] at h
        dsimp only at h
        cases h
        simp [ih (acc + dd) rest t hdc]

/-- C8 (amended): when the sentinel is absent from the array-data field,
the extraction step does not raise a sentinel error; it silently decodes
the declared byte count starting at the fixed offset 3 (`find`'s -1 plus
4), succeeding whenever that slice decodes to the expected sample
count. -/
theorem readbinary_missing_sentinel_amended (s : List Nat) (sz n : Nat)
    (l : List Int) (hsent : findSub s STARTER = none)
    (hdec : decodeBO ((s.drop 3).take sz) n = some l) :
    readbinaryByteOffset s sz n = Except.ok l := by
  unfold readbinaryByteOffset
  rw [hsent]
  dsimp only
  rw [hdec]
  dsimp only
  rw [if_pos (decOff_length n 0 ((s.drop 3).take sz) l hdec)]

/-- C8 (witness): a concrete sentinel-free stream decoded from offset 3. -/
theorem readbinary_missing_sentinel_amended_witness :
    readbinaryByteOffset [9, 9, 9, 7] 1 1 = Except.ok [7] :=
  readbinary_missing_sentinel_amended [9, 9, 9, 7] 1 1 [7] rfl rfl
